import Mathlib

/-!
Verification of the tag-documentation extraction and aggregation pipeline
of platform_checker (tagdoc.py).

Python strings are modelled as `List Char`; Python 2 compares byte strings
lexicographically by character code, modelled here by `lexLe` below.
Machine text offsets are `Nat`.  Fallible operations return `Option`.
-/

/-- Lexicographic (non-strict) comparison of character lists, the order
Python 2 uses on byte strings.  Executable by construction. -/
def lexLe : List Char → List Char → Bool
  | [], _ => true
  | _ :: _, [] => false
  | a :: as, b :: bs => if a = b then lexLe as bs else decide (a < b)

/-- The set of characters stripped by Python 2 `str.strip()`. -/
def pyWs (c : Char) : Bool :=
  c = ' ' || c = '\t' || c = '\n' || c = '\r' || c = '\x0b' || c = '\x0c'

/-- Model of Python 2 `str.strip()`: remove leading and trailing whitespace. -/
def pyStrip (l : List Char) : List Char :=
  ((l.dropWhile pyWs).reverse.dropWhile pyWs).reverse

/-- Model of Python 2 `str.splitlines()` on byte strings: split at each of
the line boundaries LF, CR, CRLF; a trailing boundary ends the final line
without adding an empty line. -/
def splitlinesFuel : Nat → List Char → List (List Char)
  | 0, _ => []
  | _ + 1, [] => []
  | fuel + 1, c :: rest =>
    if c = '\n' then [] :: splitlinesFuel fuel rest
    else if c = '\r' then
      [] :: splitlinesFuel fuel (if rest.head? = some '\n' then rest.tail else rest)
    else
      let r := splitlinesFuel fuel rest
      (c :: r.headD []) :: r.tail

def splitlines (l : List Char) : List (List Char) :=
  splitlinesFuel l.length l

/-- Model of Python `str.split(sep)` with the single-character separator
used in tagdoc.py (tag.split with a dash): all fields, empties kept. -/
def splitDash : List Char → List (List Char)
  | [] => [[]]
  | c :: rest =>
    let r := splitDash rest
    if c = '-' then [] :: r else (c :: r.headD []) :: r.tail

/-- Model of `tag.split(dash)[negative-one]` from TagDoc.__init__
(tagdoc.py line 110): the last field of the split. -/
def pyInstitution (tag : List Char) : List Char :=
  (splitDash tag).getLastD []

/-- The marker token of PHONELAB_DOC_PATTERN (tagdoc.py line 25). -/
def phonelabMarker : List Char := "PhoneLab".data

/-- First step of searching PHONELAB_DOC_PATTERN in a comment body: the
suffix after the first occurrence of the marker token, if the marker
occurs.  Because the pattern begins with the literal marker, re.search
anchors the match at its first occurrence. -/
def dropAfterMarker : List Char → Option (List Char)
  | [] => none
  | c :: rest =>
    if phonelabMarker.isPrefixOf (c :: rest) then
      some ((c :: rest).drop phonelabMarker.length)
    else
      dropAfterMarker rest

/-- Model of `PHONELAB_DOC_PATTERN.search(body)` returning the `json`
group (tagdoc.py lines 25-26).  The pattern is the marker, a lazy gap,
then an opening brace followed by a GREEDY dot-star and a closing brace,
with DOTALL: the group runs from the first opening brace after the first
marker occurrence to the LAST closing brace of the body.  If after the
first marker occurrence no opening brace is followed by a later closing
brace, no later marker occurrence can match either, so the search fails. -/
def lastCloseGroup (rest : List Char) : Option (List Char) :=
  match rest.reverse.dropWhile (fun c => c != '}') with
  | [] => none
  | r :: rs => some ('{' :: (r :: rs).reverse)

def bracesGroup (t : List Char) : Option (List Char) :=
  match t.dropWhile (fun c => c != '{') with
  | '{' :: rest => lastCloseGroup rest
  | _ => none

def phonelabDocGroup (body : List Char) : Option (List Char) :=
  match dropAfterMarker body with
  | none => none
  | some t => bracesGroup t

/-- Model of one step of `.*?\x2a/` matching: split the input at the first
occurrence of the two-character comment terminator, returning the text
before it and the rest after it. -/
def splitAtClose : List Char → Option (List Char × List Char)
  | [] => none
  | c :: rest =>
    if c = '*' ∧ rest.head? = some '/' then some ([], rest.tail)
    else (splitAtClose rest).map (fun p => (c :: p.1, p.2))

/-- Model of `COMMENT_PATTERN.finditer(s)` (tagdoc.py lines 23, 122):
non-overlapping block comments in source order, each as (start offset of
the comment opener, body text).  A lazy dot-star with DOTALL makes each
body end at the first terminator after its opener; an opener with no
terminator anywhere after it cannot match, and then no later opener can
match either.  Fuel is one unit per examined position, so the input
length is always enough. -/
def scanCommentsFuel : Nat → Nat → List Char → List (Nat × List Char)
  | 0, _, _ => []
  | _ + 1, _, [] => []
  | fuel + 1, pos, c :: rest =>
    if c = '/' ∧ rest.head? = some '*' then
      match splitAtClose rest.tail with
      | some (body, rest2) =>
        (pos, body) :: scanCommentsFuel fuel (pos + body.length + 4) rest2
      | none => []
    else
      scanCommentsFuel fuel (pos + 1) rest

/-- All block comments of a text with their start offsets. -/
def scanComments (s : List Char) : List (Nat × List Char) :=
  scanCommentsFuel s.length 0 s

/-- Model of the payload normalisation of tagdoc.py lines 127-128:
replace every asterisk by nothing, split into lines, strip each line,
join with single spaces. -/
def normalizeDoc (j : List Char) : List Char :=
  List.intercalate [' '] ((splitlines (j.filter (fun c => c != '*'))).map pyStrip)

/-- JSON whitespace accepted between tokens by the decoder. -/
def jsonWs (c : Char) : Bool :=
  c = ' ' || c = '\t' || c = '\n' || c = '\r'

/-- Skip JSON inter-token whitespace. -/
def skipWs (s : List Char) : List Char := s.dropWhile jsonWs

/-- JSON single-character string escapes.  The numeric \uXXXX escape is
not modelled: the payloads of this format are plain ASCII objects with
string keys and string values (spec section 6). -/
def escChar (c : Char) : Option Char :=
  if c = '"' then some '"'
  else if c = '\\' then some '\\'
  else if c = '/' then some '/'
  else if c = 'b' then some '\x08'
  else if c = 'f' then some '\x0c'
  else if c = 'n' then some '\n'
  else if c = 'r' then some '\r'
  else if c = 't' then some '\t'
  else none

/-- Parse the remainder of a JSON string literal, the opening quote
already consumed: returns the decoded content and the input after the
closing quote. -/
def parseJString : List Char → Option (List Char × List Char)
  | [] => none
  | c :: rest =>
    if c = '"' then some ([], rest)
    else if c = '\\' then
      match rest with
      | [] => none
      | e :: rest2 =>
        match escChar e with
        | some d =>
          match parseJString rest2 with
          | some (str, r) => some (d :: str, r)
          | none => none
        | none => none
    else
      match parseJString rest with
      | some (str, r) => some (c :: str, r)
      | none => none

/-- Parse the members of a JSON object of string keys and string values,
positioned at the opening quote of a key: returns the key-value pairs in
textual order and the input just after the closing brace of the object.
Fuel is one unit per member, so the input length is always enough. -/
def parseMembersFuel : Nat → List Char → Option (List (List Char × List Char) × List Char)
  | 0, _ => none
  | fuel + 1, s =>
    match s with
    | '"' :: r =>
      match parseJString r with
      | some (key, r1) =>
        match skipWs r1 with
        | ':' :: r3 =>
          match skipWs r3 with
          | '"' :: r5 =>
            match parseJString r5 with
            | some (val, r6) =>
              match skipWs r6 with
              | ',' :: r8 =>
                match parseMembersFuel fuel (skipWs r8) with
                | some (doc, rest) => some ((key, val) :: doc, rest)
                | none => none
              | '}' :: r8 => some ([(key, val)], r8)
              | _ => none
            | none => none
          | _ => none
        | _ => none
      | none => none
    | _ => none

/-- Model of `json.loads` (tagdoc.py line 129) on the payload fragment
this format uses (spec section 6): a single object with string keys and
string values, nothing but whitespace around or between tokens, the
whole input consumed.  Any other input is a decode error.  Duplicate
keys behave like Python dict construction: the last binding wins, which
`getKey` below realises by taking the last matching pair. -/
def jsonLoads (s : List Char) : Option (List (List Char × List Char)) :=
  match skipWs s with
  | '{' :: r =>
    match skipWs r with
    | '}' :: r2 => if skipWs r2 = [] then some [] else none
    | r2 =>
      match parseMembersFuel r2.length r2 with
      | some (doc, rest) => if skipWs rest = [] then some doc else none
      | none => none
  | _ => none

/-- Look a key up in a decoded object, later duplicates overriding
earlier ones as in a Python dict. -/
def getKey (doc : List (List Char × List Char)) (k : List Char) : Option (List Char) :=
  ((doc.filter (fun p => p.1 == k)).getLast?).map (fun p => p.2)

/-- One checked-out repository project (tagdoc.py lines 37-48): workspace
root, path relative to it, manifest name, and the branch snapshot taken
at discovery time. -/
structure RepoProject where
  root : List Char
  path : List Char
  name : List Char
  current_branch : List Char
deriving DecidableEq

/-- The fixed server base of project URLs (tagdoc.py line 34). -/
def HTTP_SERVER : List Char := "http://platform.phone-lab.org:8080".data

/-- Model of the `url` property (tagdoc.py lines 50-52). -/
def RepoProject.url (p : RepoProject) : List Char :=
  HTTP_SERVER ++ "/gitweb?p=cm-shamu/".data ++ p.name ++ ".git".data

/-- Index of the first occurrence of `needle` in a character list, as
Python `str.index` computes it; `none` models the ValueError raised when
the needle does not occur. -/
def strIndex (needle : List Char) : List Char → Option Nat
  | [] => if needle = [] then some 0 else none
  | c :: rest =>
    if needle.isPrefixOf (c :: rest) then some 0
    else (strIndex needle rest).map (· + 1)

/-- Model of RepoProject.get_relative_path (tagdoc.py lines 58-59):
everything after the first occurrence of the project path plus one
separator character; `none` models the ValueError when the project path
does not occur in the argument. -/
def RepoProject.get_relative_path (p : RepoProject) (path : List Char) : Option (List Char) :=
  (strIndex p.path path).map (fun i => path.drop (i + p.path.length + 1))

/-- Model of RepoProject.get_file_url (tagdoc.py lines 61-67). -/
def RepoProject.get_file_url (p : RepoProject) (file_path : List Char)
    (line_no : Option Nat) : Option (List Char) :=
  (p.get_relative_path file_path).map (fun rel =>
    let url := p.url ++ ";a=blob;f=".data ++ rel ++ ";hb=refs/heads/".data ++ p.current_branch
    match line_no with
    | some n => url ++ "#l".data ++ (Nat.repr n).data
    | none => url)

/-- Model of the `abs_path` property (tagdoc.py lines 54-56):
os.path.join of the workspace root and the relative project path, for a
relative path and a root without trailing separator. -/
def RepoProject.abs_path (p : RepoProject) : List Char :=
  p.root ++ ['/'] ++ p.path

/-- One documented tag occurrence (tagdoc.py lines 89-110): the five
payload fields, the derived institution, and the provenance fields. -/
structure TagDoc where
  proj : RepoProject
  file : List Char
  line_no : Nat
  category : List Char
  sub_category : List Char
  tag : List Char
  action : List Char
  description : List Char
  institution : List Char
deriving DecidableEq

/-- Model of TagDoc.__init__ (tagdoc.py lines 101-110): read the five
required keys of FIELD_MAPPING from the decoded object; a missing key is
a KeyError, modelled as `none`; the institution is derived from the tag
as the last dash-separated field. -/
def TagDoc.make (proj : RepoProject) (file : List Char) (line_no : Nat)
    (doc : List (List Char × List Char)) : Option TagDoc :=
  match getKey doc "Category".data, getKey doc "SubCategory".data,
      getKey doc "Tag".data, getKey doc "Action".data,
      getKey doc "Description".data with
  | some c, some sc, some tg, some a, some d =>
    some { proj := proj, file := file, line_no := line_no, category := c,
           sub_category := sc, tag := tg, action := a, description := d,
           institution := pyInstitution tg }
  | _, _, _, _, _ => none

/-- Processing of one comment match inside TagDoc.create_from_file
(tagdoc.py lines 123-136): search the body for the doc pattern; no
match is silently skipped; on a match, normalise the payload, decode it,
and build the record with the line number one more than the count of
newline characters of the text before the start offset of the comment.
The result pairs the produced records with the number of error log
events (the `logger.exception` call of the except branch). -/
def processComment (proj : RepoProject) (file : List Char) (s : List Char)
    (start : Nat) (body : List Char) : List TagDoc × Nat :=
  match phonelabDocGroup body with
  | none => ([], 0)
  | some j =>
    match jsonLoads (normalizeDoc j) with
    | none => ([], 1)
    | some doc =>
      match TagDoc.make proj file ((s.take start).count '\n' + 1) doc with
      | none => ([], 1)
      | some td => ([td], 0)

/-- The comment-scanning loop of TagDoc.create_from_file (tagdoc.py
lines 120-137) over the text of one already-opened file: every block
comment is processed independently, records are appended in discovery
order, and error log events are counted. -/
def createFromFileScan (proj : RepoProject) (file : List Char) (s : List Char) :
    List TagDoc × Nat :=
  (scanComments s).foldl
    (fun acc pc =>
      let r := processComment proj file s pc.1 pc.2
      (acc.1 ++ r.1, acc.2 + r.2))
    ([], 0)

/-- The allowed source extensions (tagdoc.py line 99). -/
def SRC_EXTENSIONS : List (List Char) := [".c".data, ".cpp".data, ".java".data]

/-- Index of the last occurrence of a character, for the rfind calls of
the os.path.splitext model. -/
def rfindIdx (c : Char) (s : List Char) : Option Nat :=
  (s.reverse.findIdx? (fun x => x == c)).map (fun r => s.length - 1 - r)

/-- Model of the extension part of `os.path.splitext` on posix paths:
the suffix from the last dot of the final path component, unless every
character of the component before that dot is itself a dot. -/
def splitextExt (p : List Char) : List Char :=
  match rfindIdx '.' p with
  | none => []
  | some d =>
    let base : Nat :=
      match rfindIdx '/' p with
      | none => 0
      | some s0 => s0 + 1
    let dotAfterSep : Bool :=
      match rfindIdx '/' p with
      | none => true
      | some s0 => decide (s0 < d)
    if dotAfterSep then
      if ((p.drop base).take (d - base)).any (fun c => c != '.') then p.drop d else []
    else []

/-- Model of TagDoc.create_from_file (tagdoc.py lines 112-138): files
whose extension is not in the allow-list produce nothing without being
read; otherwise the content is scanned as above.  The file content is a
parameter standing for the result of the read. -/
def TagDoc.create_from_file (proj : RepoProject) (src_file : List Char)
    (content : List Char) : List TagDoc × Nat :=
  if splitextExt src_file ∈ SRC_EXTENSIONS then
    createFromFileScan proj src_file content
  else ([], 0)

/-- Insert into a list sorted by `lexLe`, before the first element it
compares less-or-equal to. -/
def sortLexInsert (x : List Char) : List (List Char) → List (List Char)
  | [] => [x]
  | y :: ys => if lexLe x y then x :: y :: ys else y :: sortLexInsert x ys

/-- Insertion sort by `lexLe`. -/
def sortLex : List (List Char) → List (List Char)
  | [] => []
  | x :: xs => sortLexInsert x (sortLex xs)

/-- Model of `sorted(list(set(xs)))` as both formatters use it (tagdoc.py
lines 159, 163, 208, 214): the distinct values in ascending lexicographic
order.  The sorted output is determined by the set of elements alone, so
which duplicate occurrences `dedup` keeps is irrelevant. -/
def sortedSet (xs : List (List Char)) : List (List Char) :=
  sortLex xs.dedup

/-- Stable insertion by action key: the inserted element goes before the
first element whose action is greater-or-equal. -/
def insertByAction (x : TagDoc) : List TagDoc → List TagDoc
  | [] => [x]
  | y :: ys => if lexLe x.action y.action then x :: y :: ys else y :: insertByAction x ys

/-- Model of `sorted(ts, key=lambda t: t.action)` (tagdoc.py lines 166,
218): Python sorted is a stable sort by the key, and a stable sorted-by-
key permutation of a list is unique, here realised by insertion sort
processed from the right so that of two equal-action records the earlier
one stays first. -/
def sortByAction : List TagDoc → List TagDoc
  | [] => []
  | x :: xs => insertByAction x (sortByAction xs)

/-- The section structure the HTMLFormatter.__repr__ loops emit (tagdoc.py
lines 159-174): one entry per category in sorted distinct order, inside it
one entry per tag of that category in sorted distinct order, inside it the
records of that category and tag sorted by action.  The category filter is
evaluated before the inner loop rebinds the tag variable, so it always
filters on the category string. -/
def HTMLFormatter.sections (tag_docs : List TagDoc) :
    List (List Char × List (List Char × List TagDoc)) :=
  (sortedSet (tag_docs.map TagDoc.category)).map (fun category =>
    let category_tags := tag_docs.filter (fun t => t.category == category)
    (category,
      (sortedSet (category_tags.map TagDoc.tag)).map (fun tg =>
        (tg, sortByAction (category_tags.filter (fun t => t.tag == tg))))))

/-- The section structure the RSTFormatter.__repr__ loops emit (tagdoc.py
lines 208-226); the loop structure is the same as the HTML one. -/
def RSTFormatter.sections (tag_docs : List TagDoc) :
    List (List Char × List (List Char × List TagDoc)) :=
  (sortedSet (tag_docs.map TagDoc.category)).map (fun category =>
    let category_tags := tag_docs.filter (fun t => t.category == category)
    (category,
      (sortedSet (category_tags.map TagDoc.tag)).map (fun tg =>
        (tg, sortByAction (category_tags.filter (fun t => t.tag == tg))))))

/-- The four summary numbers of HTMLFormatter.__repr__ (tagdoc.py lines
176-190): `len(set(...))` over the whole collection for tags, actions,
categories and institutions, modelled as the length of the deduplicated
list of values. -/
def HTMLFormatter.summaryCounts (tag_docs : List TagDoc) : Nat × Nat × Nat × Nat :=
  ((tag_docs.map TagDoc.tag).dedup.length,
   (tag_docs.map TagDoc.action).dedup.length,
   (tag_docs.map TagDoc.category).dedup.length,
   (tag_docs.map TagDoc.institution).dedup.length)

/-- The four summary numbers of RSTFormatter.__repr__ (tagdoc.py lines
228-238), computed by the same expressions as the HTML ones. -/
def RSTFormatter.summaryCounts (tag_docs : List TagDoc) : Nat × Nat × Nat × Nat :=
  ((tag_docs.map TagDoc.tag).dedup.length,
   (tag_docs.map TagDoc.action).dedup.length,
   (tag_docs.map TagDoc.category).dedup.length,
   (tag_docs.map TagDoc.institution).dedup.length)

/-- One list item of the HTML body (tagdoc.py lines 167-173); `none`
models the ValueError escaping from get_relative_path. -/
def htmlItem (t : TagDoc) : Option (List Char) :=
  match t.proj.get_file_url t.file (some t.line_no), t.proj.get_relative_path t.file with
  | some fu, some rel => some (
      "<li style=\"margin-bottom: 10px;\">\n<b>Action</b>: <code>".data ++ t.action ++
      "</code></br>\n<b>File</b>: <code><a href=\"".data ++ t.proj.url ++
      "\" target=\"_blanck\"><b>".data ++ t.proj.path ++
      "</b></a>/<a href=\"".data ++ fu ++ "\" target=\"_blank\">".data ++ rel ++
      [':'] ++ (Nat.repr t.line_no).data ++
      "</a></code></br>\n<b>Description</b>: ".data ++ t.description ++
      "</br>\n</li>\n".data)
  | _, _ => none

/-- One tag subsection of the HTML body (tagdoc.py lines 164-174). -/
def htmlTagBlock (tg : List Char) (occs : List TagDoc) : Option (List Char) :=
  (occs.mapM htmlItem).map (fun items =>
    "<h4><b>Tag</b>: <code>".data ++ tg ++ "</code></h4>\n<ol>\n".data ++
    items.flatten ++ "</ol>\n".data)

/-- One category section of the HTML body (tagdoc.py lines 160-174). -/
def htmlCategoryBlock (c : List Char) (tgs : List (List Char × List TagDoc)) :
    Option (List Char) :=
  (tgs.mapM (fun p => htmlTagBlock p.1 p.2)).map (fun bs =>
    "<h2><b>Category</b>: ".data ++ c ++ "</h2>\n".data ++ bs.flatten)

/-- Model of HTMLFormatter.__repr__ (tagdoc.py lines 156-195): summary,
then the category sections, then the footer.  The date the footer
interpolates is a parameter. -/
def HTMLFormatter.render (today : List Char) (tag_docs : List TagDoc) :
    Option (List Char) :=
  ((HTMLFormatter.sections tag_docs).mapM (fun p => htmlCategoryBlock p.1 p.2)).map
    (fun bs =>
      let counts := HTMLFormatter.summaryCounts tag_docs
      "<h2>Summary</h2>\n<p>PhoneLab\x27s instrumented Android platform currently contains:</p>\n<ul>\n<li><b>".data
      ++ (Nat.repr counts.1).data ++ "</b> tags, <b>".data ++ (Nat.repr counts.2.1).data
      ++ "</b> actions,</li>\n<li>... in <b>".data ++ (Nat.repr counts.2.2.1).data
      ++ "</b> categories,</li>\n<li>... added by <b>".data ++ (Nat.repr counts.2.2.2).data
      ++ "</b> institution".data ++ (if 1 < counts.2.2.2 then ['s'] else [])
      ++ ".</li>\n</ul>\n".data ++ bs.flatten
      ++ "<hr>\n<p><i>Last updated ".data ++ today ++ ".</i></p>".data)

/-- Model of RSTFormatter.wrap_title (tagdoc.py lines 203-204). -/
def wrap_title (title : List Char) (level : Char) : List Char :=
  title ++ ['\n'] ++ List.replicate title.length level ++ ['\n']

/-- One list item of the RST body (tagdoc.py lines 220-226). -/
def rstItem (t : TagDoc) : Option (List Char) :=
  match t.proj.get_relative_path t.file, t.proj.get_file_url t.file (some t.line_no) with
  | some rel, some fu => some (
      "#. | **Action**: ``".data ++ t.action ++ "``\n   | **Project**: `".data ++
      t.proj.path ++ " <".data ++ t.proj.url ++ ">`_\n   | **File**: `".data ++
      rel ++ [':'] ++ (Nat.repr t.line_no).data ++ " <".data ++ fu ++
      ">`_\n   | **Description**: ".data ++ t.description ++ "\n\n".data)
  | _, _ => none

/-- One tag subsection of the RST body (tagdoc.py lines 214-226). -/
def rstTagBlock (tg : List Char) (occs : List TagDoc) : Option (List Char) :=
  (occs.mapM rstItem).map (fun items =>
    "\n\n".data ++ wrap_title ("Tag: ``".data ++ tg ++ "``".data) '~' ++ ['\n'] ++
    items.flatten)

/-- One category section of the RST body (tagdoc.py lines 208-226). -/
def rstCategoryBlock (c : List Char) (tgs : List (List Char × List TagDoc)) :
    Option (List Char) :=
  (tgs.mapM (fun p => rstTagBlock p.1 p.2)).map (fun bs =>
    "\n\n".data ++ wrap_title ("Catetory: ".data ++ c) '+' ++ bs.flatten)

/-- Model of RSTFormatter.__repr__ (tagdoc.py lines 206-245): generated
header, summary, category sections, footer.  The script name and the date
interpolated into header and footer are parameters. -/
def RSTFormatter.render (scriptName today : List Char) (tag_docs : List TagDoc) :
    Option (List Char) :=
  ((RSTFormatter.sections tag_docs).mapM (fun p => rstCategoryBlock p.1 p.2)).map
    (fun bs =>
      let counts := RSTFormatter.summaryCounts tag_docs
      ".. Generated by ".data ++ scriptName ++ " on ".data ++ today ++
      ", DO NOT MODIFY.\n\n".data ++ wrap_title "Summary".data '-'
      ++ "PhoneLab\x27s instrumented Android platform currently contains:\n\n* ".data
      ++ (Nat.repr counts.1).data ++ " tags, ".data ++ (Nat.repr counts.2.1).data
      ++ " actions,\n\n* ... in ".data ++ (Nat.repr counts.2.2.1).data
      ++ " categories,\n\n* ... added by ".data ++ (Nat.repr counts.2.2.2).data
      ++ " institution".data ++ (if 1 < counts.2.2.2 then ['s'] else [])
      ++ ".\n\n".data ++ bs.flatten ++ "Last updated ".data ++ today)

/-- Depth-counting scan used by the spec-side payload extractor: consume
until the brace depth returns to zero, returning the consumed region. -/
def balancedScan : Nat → List Char → List Char → Option (List Char)
  | _, _, [] => none
  | depth, acc, c :: rest =>
    if c = '{' then balancedScan (depth + 1) (c :: acc) rest
    else if c = '}' then
      if depth = 1 then some (c :: acc).reverse
      else balancedScan (depth - 1) (c :: acc) rest
    else balancedScan depth (c :: acc) rest

/-- The payload extraction in the words of the spec (section 4.2):
the substring following the marker up to and including a balanced
brace-delimited region, exactly one structured object.  Stated for
comparison with `phonelabDocGroup`, the extraction the code performs. -/
def balancedDocGroupSpec (body : List Char) : Option (List Char) :=
  match dropAfterMarker body with
  | none => none
  | some t =>
    match t.dropWhile (fun c => c != '{') with
    | '{' :: rest => balancedScan 1 ['{'] rest
    | _ => none

/-- The strict lexicographic order on character lists, the ordering the
spec means by lexicographically sorted. -/
def lexLt (a b : List Char) : Prop := List.Lex (· < ·) a b

/-- A fixed project used by the concrete evaluations below. -/
def pEx : RepoProject := ⟨"/r".data, "p".data, "n".data, "b".data⟩

/-- Comment body whose payload is followed by later text and a second
brace pair. -/
def bodyC1 : List Char := "PhoneLab \x7b\"x\": \"1\"\x7d tail \x7b\"y\": \"2\"\x7d".data

/-- The group the code extracts from `bodyC1`: greedy to the last closing
brace. -/
def groupC1 : List Char := "\x7b\"x\": \"1\"\x7d tail \x7b\"y\": \"2\"\x7d".data

/-- The balanced region of `bodyC1`: exactly the first object. -/
def balC1 : List Char := "\x7b\"x\": \"1\"\x7d".data

/-- Comment body with the marker and an opening brace that is never
closed. -/
def bodyC3 : List Char := "PhoneLab \x7b oops".data

/-- Comment body with the marker and a brace pair whose content is not
valid JSON. -/
def bodyC3w : List Char := "PhoneLab \x7bbad\x7d".data

/-- Comment body whose Description value contains an asterisk. -/
def bodyC4 : List Char :=
  "PhoneLab \x7b\"Category\": \"c\", \"SubCategory\": \"s\", \"Tag\": \"t\", \"Action\": \"a\", \"Description\": \"x*y\"\x7d".data

/-- The payload text of `bodyC4` as extracted, before normalisation. -/
def groupC4 : List Char :=
  "\x7b\"Category\": \"c\", \"SubCategory\": \"s\", \"Tag\": \"t\", \"Action\": \"a\", \"Description\": \"x*y\"\x7d".data

/-- The object `groupC4` decodes to when taken as it stands, before
normalisation. -/
def docC4cex : List (List Char × List Char) :=
  [("Category".data, "c".data), ("SubCategory".data, "s".data),
   ("Tag".data, "t".data), ("Action".data, "a".data),
   ("Description".data, "x*y".data)]

/-- A clean single-line comment body with all five keys. -/
def bodyC4w : List Char :=
  "PhoneLab \x7b\"Category\": \"c\", \"SubCategory\": \"s\", \"Tag\": \"t\", \"Action\": \"a\", \"Description\": \"d\"\x7d".data

/-- The payload text of `bodyC4w`. -/
def groupC4w : List Char :=
  "\x7b\"Category\": \"c\", \"SubCategory\": \"s\", \"Tag\": \"t\", \"Action\": \"a\", \"Description\": \"d\"\x7d".data

/-- The decoded object of `groupC4w`. -/
def docC4w : List (List Char × List Char) :=
  [("Category".data, "c".data), ("SubCategory".data, "s".data),
   ("Tag".data, "t".data), ("Action".data, "a".data),
   ("Description".data, "d".data)]

/-- A valid comment body whose tag carries an institution suffix. -/
def bodyC5 : List Char :=
  "PhoneLab \x7b\"Category\": \"C\", \"SubCategory\": \"S\", \"Tag\": \"ui-event-UB\", \"Action\": \"A\", \"Description\": \"D\"\x7d".data

/-- The payload text of `bodyC5`. -/
def groupC5 : List Char :=
  "\x7b\"Category\": \"C\", \"SubCategory\": \"S\", \"Tag\": \"ui-event-UB\", \"Action\": \"A\", \"Description\": \"D\"\x7d".data

/-- The decoded object of `groupC5`. -/
def docC5 : List (List Char × List Char) :=
  [("Category".data, "C".data), ("SubCategory".data, "S".data),
   ("Tag".data, "ui-event-UB".data), ("Action".data, "A".data),
   ("Description".data, "D".data)]

/-- A two-line source file whose comment starts on line 2. -/
def sC6 : List Char :=
  "x\n/* PhoneLab \x7b\"Category\": \"C\", \"SubCategory\": \"S\", \"Tag\": \"a-UB\", \"Action\": \"A\", \"Description\": \"D\"\x7d */".data

/-- The record the scan of `sC6` produces. -/
def tdC6 : TagDoc :=
  ⟨pEx, "f.c".data, 2, "C".data, "S".data, "a-UB".data, "A".data, "D".data,
   "UB".data⟩

/-- A record used to exercise the formatter grouping. -/
def tdC2 : TagDoc :=
  ⟨pEx, "f.c".data, 1, "C".data, "S".data, "t".data, "A".data, "D".data,
   "t".data⟩

/-- A comment body without the marker token. -/
def bodyC8 : List Char := "just a comment".data

/-- A project whose relative path is fw, for the path lemmas. -/
def pC10 : RepoProject := ⟨"/w".data, "fw".data, "n".data, "b".data⟩

theorem lexLe_iff (a b : List Char) : lexLe a b = true ↔ (lexLt a b ∨ a = b) := by
  induction a generalizing b with
  | nil =>
    cases b with
    | nil => simp [lexLe, lexLt]
    | cons c cs => simp [lexLe, lexLt]; exact List.Lex.nil
  | cons x xs ih =>
    cases b with
    | nil =>
      simp only [lexLe, lexLt]
      constructor
      · intro h; cases h
      · rintro (h | h)
        · cases h
        · cases h
    | cons y ys =>
      simp only [lexLe, lexLt]
      by_cases hxy : x = y
      · subst hxy
        rw [if_pos rfl, ih ys]
        constructor
        · rintro (h | h)
          · exact Or.inl (List.Lex.cons h)
          · exact Or.inr (by rw [h])
        · rintro (h | h)
          · cases h with
            | cons h => exact Or.inl h
            | rel h => exact absurd h (lt_irrefl x)
          · exact Or.inr (by injection h)
      · rw [if_neg hxy]
        constructor
        · intro h
          exact Or.inl (List.Lex.rel (of_decide_eq_true h))
        · rintro (h | h)
          · cases h with
            | cons h => exact absurd rfl hxy
            | rel h => exact decide_eq_true h
          · injection h with h1 h2; exact absurd h1 hxy

theorem lexLe_refl (a : List Char) : lexLe a a = true := by
  rw [lexLe_iff]; exact Or.inr rfl

theorem lexLe_total (a b : List Char) : lexLe a b = true ∨ lexLe b a = true := by
  rw [lexLe_iff, lexLe_iff]
  rcases lt_trichotomy a b with h | h | h
  · exact Or.inl (Or.inl h)
  · exact Or.inl (Or.inr h)
  · exact Or.inr (Or.inl h)

theorem lexLt_trans {a b c : List Char} (h1 : lexLt a b) (h2 : lexLt b c) : lexLt a c :=
  lt_trans (α := List Char) h1 h2

theorem lexLt_asymm {a b : List Char} (h : lexLt a b) : ¬ lexLt b a :=
  lt_asymm (α := List Char) h

theorem lexLe_trans {a b c : List Char} (h1 : lexLe a b = true) (h2 : lexLe b c = true) :
    lexLe a c = true := by
  rw [lexLe_iff] at *
  rcases h1 with h1 | h1
  · rcases h2 with h2 | h2
    · exact Or.inl (lexLt_trans h1 h2)
    · exact Or.inl (h2 ▸ h1)
  · exact h1 ▸ h2

theorem lexLe_antisymm {a b : List Char} (h1 : lexLe a b = true) (h2 : lexLe b a = true) :
    a = b := by
  rw [lexLe_iff] at *
  rcases h1 with h1 | h1
  · rcases h2 with h2 | h2
    · exact absurd h2 (lexLt_asymm h1)
    · exact h2.symm
  · exact h1

theorem sortLexInsert_perm (x : List Char) (l : List (List Char)) :
    (sortLexInsert x l).Perm (x :: l) := by
  induction l with
  | nil => simp [sortLexInsert]
  | cons y ys ih =>
    simp only [sortLexInsert]
    by_cases h : lexLe x y = true
    · rw [if_pos h]
    · rw [if_neg h]
      exact ((ih.cons y).trans (List.Perm.swap x y ys))

theorem sortLex_perm (l : List (List Char)) : (sortLex l).Perm l := by
  induction l with
  | nil => simp [sortLex]
  | cons x xs ih =>
    exact (sortLexInsert_perm x (sortLex xs)).trans (ih.cons x)

theorem mem_sortLexInsert {z x : List Char} {l : List (List Char)} :
    z ∈ sortLexInsert x l ↔ z = x ∨ z ∈ l := by
  rw [(sortLexInsert_perm x l).mem_iff, List.mem_cons]

theorem pairwise_sortLexInsert {x : List Char} {l : List (List Char)}
    (h : l.Pairwise (fun a b => lexLe a b = true)) :
    (sortLexInsert x l).Pairwise (fun a b => lexLe a b = true) := by
  induction l with
  | nil => simp [sortLexInsert]
  | cons y ys ih =>
    rcases List.pairwise_cons.mp h with ⟨h1, h2⟩
    simp only [sortLexInsert]
    by_cases hxy : lexLe x y = true
    · rw [if_pos hxy]
      refine List.pairwise_cons.mpr ⟨?_, h⟩
      intro z hz
      rcases List.mem_cons.mp hz with rfl | hz
      · exact hxy
      · exact lexLe_trans hxy (h1 z hz)
    · rw [if_neg hxy]
      refine List.pairwise_cons.mpr ⟨?_, ih h2⟩
      intro z hz
      rcases mem_sortLexInsert.mp hz with rfl | hz
      · rcases lexLe_total z y with h | h
        · exact absurd h hxy
        · exact h
      · exact h1 z hz

theorem pairwise_sortLex (l : List (List Char)) :
    (sortLex l).Pairwise (fun a b => lexLe a b = true) := by
  induction l with
  | nil => simp [sortLex]
  | cons x xs ih => exact pairwise_sortLexInsert ih

theorem nodup_sortedSet (xs : List (List Char)) : (sortedSet xs).Nodup :=
  ((sortLex_perm xs.dedup).nodup_iff).mpr (List.nodup_dedup xs)

theorem mem_sortedSet {z : List Char} {xs : List (List Char)} :
    z ∈ sortedSet xs ↔ z ∈ xs := by
  rw [sortedSet, (sortLex_perm xs.dedup).mem_iff, List.mem_dedup]

theorem sorted_lexLt_sortedSet (xs : List (List Char)) :
    (sortedSet xs).Pairwise lexLt := by
  have hle := pairwise_sortLex xs.dedup
  have hne : (sortedSet xs).Pairwise (fun a b => a ≠ b) := nodup_sortedSet xs
  exact (hle.and hne).imp (fun h => by
    rcases (lexLe_iff _ _).mp h.1 with h1 | h1
    · exact h1
    · exact absurd h1 h.2)

theorem insertByAction_perm (x : TagDoc) (l : List TagDoc) :
    (insertByAction x l).Perm (x :: l) := by
  induction l with
  | nil => simp [insertByAction]
  | cons y ys ih =>
    simp only [insertByAction]
    by_cases h : lexLe x.action y.action = true
    · rw [if_pos h]
    · rw [if_neg h]
      exact ((ih.cons y).trans (List.Perm.swap x y ys))

theorem sortByAction_perm (l : List TagDoc) : (sortByAction l).Perm l := by
  induction l with
  | nil => simp [sortByAction]
  | cons x xs ih =>
    exact (insertByAction_perm x (sortByAction xs)).trans (ih.cons x)

theorem mem_insertByAction {z x : TagDoc} {l : List TagDoc} :
    z ∈ insertByAction x l ↔ z = x ∨ z ∈ l := by
  rw [(insertByAction_perm x l).mem_iff, List.mem_cons]

theorem pairwise_insertByAction {x : TagDoc} {l : List TagDoc}
    (h : l.Pairwise (fun a b => lexLe a.action b.action = true)) :
    (insertByAction x l).Pairwise (fun a b => lexLe a.action b.action = true) := by
  induction l with
  | nil => simp [insertByAction]
  | cons y ys ih =>
    rcases List.pairwise_cons.mp h with ⟨h1, h2⟩
    simp only [insertByAction]
    by_cases hxy : lexLe x.action y.action = true
    · rw [if_pos hxy]
      refine List.pairwise_cons.mpr ⟨?_, h⟩
      intro z hz
      rcases List.mem_cons.mp hz with rfl | hz
      · exact hxy
      · exact lexLe_trans hxy (h1 z hz)
    · rw [if_neg hxy]
      refine List.pairwise_cons.mpr ⟨?_, ih h2⟩
      intro z hz
      rcases mem_insertByAction.mp hz with rfl | hz
      · rcases lexLe_total z.action y.action with h | h
        · exact absurd h hxy
        · exact h
      · exact h1 z hz

theorem pairwise_sortByAction (l : List TagDoc) :
    (sortByAction l).Pairwise (fun a b => lexLe a.action b.action = true) := by
  induction l with
  | nil => simp [sortByAction]
  | cons x xs ih => exact pairwise_insertByAction ih

theorem filter_insertByAction_of_eq {a : List Char} {x : TagDoc} (l : List TagDoc)
    (hx : x.action = a) :
    (insertByAction x l).filter (fun t => t.action == a) =
      x :: l.filter (fun t => t.action == a) := by
  have hxa : (x.action == a) = true := by simp [hx]
  induction l with
  | nil =>
    simp only [insertByAction]
    simp [List.filter_cons, hxa]
  | cons y ys ih =>
    simp only [insertByAction]
    by_cases hxy : lexLe x.action y.action = true
    · rw [if_pos hxy]
      simp [List.filter_cons, hxa]
    · rw [if_neg hxy]
      have hya : (y.action == a) = false := by
        simp only [beq_eq_false_iff_ne, ne_eq]
        intro hy
        apply hxy
        rw [hx, hy]
        exact lexLe_refl a
      simp [List.filter_cons, hya, ih]

theorem filter_insertByAction_of_ne {a : List Char} {x : TagDoc} (l : List TagDoc)
    (hx : x.action ≠ a) :
    (insertByAction x l).filter (fun t => t.action == a) =
      l.filter (fun t => t.action == a) := by
  have hxa : (x.action == a) = false := by simp [hx]
  induction l with
  | nil =>
    simp only [insertByAction]
    simp [List.filter_cons, hxa]
  | cons y ys ih =>
    simp only [insertByAction]
    by_cases hxy : lexLe x.action y.action = true
    · rw [if_pos hxy]
      simp [List.filter_cons, hxa]
    · rw [if_neg hxy]
      by_cases hy : (y.action == a) = true
      · simp [List.filter_cons, hy, ih]
      · have hy' : (y.action == a) = false := by simpa using hy
        simp [List.filter_cons, hy', ih]

/-- Stability of the action sort: for every action value, the records
with that action appear in the sorted output exactly in their original
order. -/
theorem filter_sortByAction (l : List TagDoc) (a : List Char) :
    (sortByAction l).filter (fun t => t.action == a) =
      l.filter (fun t => t.action == a) := by
  induction l with
  | nil => simp [sortByAction]
  | cons x xs ih =>
    simp only [sortByAction]
    by_cases hx : x.action = a
    · rw [filter_insertByAction_of_eq _ hx, ih]
      simp [List.filter_cons, hx]
    · rw [filter_insertByAction_of_ne _ hx, ih]
      simp [List.filter_cons, hx]

theorem splitDash_ne_nil (l : List Char) : splitDash l ≠ [] := by
  cases l with
  | nil => simp [splitDash]
  | cons c rest =>
    simp only [splitDash]
    by_cases h : c = '-' <;> simp [h]

theorem splitDash_no_dash {l : List Char} (h : '-' ∉ l) : splitDash l = [l] := by
  induction l with
  | nil => rfl
  | cons c rest ih =>
    have hc : c ≠ '-' := fun hc => h (hc ▸ List.mem_cons_self c rest)
    have hrest : '-' ∉ rest := fun hr => h (List.mem_cons_of_mem c hr)
    simp only [splitDash, ih hrest, if_neg hc]
    simp

theorem splitDash_two_le {l : List Char} (h : '-' ∈ l) : 2 ≤ (splitDash l).length := by
  induction l with
  | nil => cases h
  | cons c rest ih =>
    by_cases hc : c = '-'
    · simp only [splitDash, if_pos hc]
      have h1 : 0 < (splitDash rest).length :=
        List.length_pos.mpr (splitDash_ne_nil rest)
      simp only [List.length_cons]
      omega
    · have hrest : '-' ∈ rest := by
        rcases List.mem_cons.mp h with h1 | h1
        · exact absurd h1.symm hc
        · exact h1
      have h2 := ih hrest
      simp only [splitDash, if_neg hc, List.length_cons, List.length_tail]
      omega

theorem getLastD_irrel {α : Type} {l : List α} (h : l ≠ []) (d d' : α) :
    l.getLastD d = l.getLastD d' := by
  cases l with
  | nil => exact absurd rfl h
  | cons x xs => rw [List.getLastD_cons, List.getLastD_cons]

/-- pyInstitution on a tag whose final dash-separated field is `b`:
the last field of the split is exactly the substring after the last
dash. -/
theorem getLastD_splitDash_cons (c : Char) (m : List Char)
    (h2 : 2 ≤ (splitDash m).length) :
    (splitDash (c :: m)).getLastD [] = (splitDash m).getLastD [] := by
  obtain ⟨g, gs, hg⟩ : ∃ g gs, splitDash m = g :: gs := by
    cases hsd : splitDash m with
    | nil => exact absurd hsd (splitDash_ne_nil _)
    | cons g gs => exact ⟨g, gs, rfl⟩
  have hgs : gs ≠ [] := by
    rw [hg] at h2
    intro hnil
    rw [hnil] at h2
    simp at h2
  simp only [splitDash, hg]
  by_cases hc : c = '-'
  · rw [if_pos hc]
    simp [List.getLastD_cons]
  · rw [if_neg hc]
    simp only [List.headD_cons, List.tail_cons, List.getLastD_cons]
    exact getLastD_irrel hgs _ _

theorem pyInstitution_after_last_dash (a b : List Char) (h : '-' ∉ b) :
    pyInstitution (a ++ '-' :: b) = b := by
  induction a with
  | nil =>
    simp only [pyInstitution, List.nil_append, splitDash, if_pos rfl,
      splitDash_no_dash h, List.getLastD_cons]
    rfl
  | cons c a' ih =>
    have h2 : 2 ≤ (splitDash (a' ++ '-' :: b)).length := splitDash_two_le (by simp)
    calc pyInstitution ((c :: a') ++ '-' :: b)
        = (splitDash (c :: (a' ++ '-' :: b))).getLastD [] := by
          rw [List.cons_append]; rfl
      _ = (splitDash (a' ++ '-' :: b)).getLastD [] := getLastD_splitDash_cons c _ h2
      _ = b := ih

/-- pyInstitution on a tag with no dash is the whole tag. -/
theorem pyInstitution_no_dash {l : List Char} (h : '-' ∉ l) : pyInstitution l = l := by
  simp only [pyInstitution, splitDash_no_dash h]
  rfl

theorem dropAfterMarker_some {s t : List Char} (h : dropAfterMarker s = some t) :
    ∃ p, s = p ++ phonelabMarker ++ t := by
  induction s with
  | nil => simp [dropAfterMarker] at h
  | cons c rest ih =>
    by_cases hp : phonelabMarker.isPrefixOf (c :: rest) = true
    · rw [dropAfterMarker, if_pos hp] at h
      obtain ⟨t2, ht2⟩ := List.isPrefixOf_iff_prefix.mp hp
      injection h with h
      refine ⟨[], ?_⟩
      rw [List.nil_append, ← ht2, ← h, ← ht2, List.drop_left]
    · rw [dropAfterMarker, if_neg hp] at h
      obtain ⟨p, hp2⟩ := ih h
      exact ⟨c :: p, by rw [hp2]; rfl⟩

theorem dropAfterMarker_marker_occurs {s t : List Char} (h : dropAfterMarker s = some t) :
    phonelabMarker <:+: s := by
  obtain ⟨p, hp⟩ := dropAfterMarker_some h
  exact ⟨p, t, by rw [hp, List.append_assoc]⟩

theorem dropAfterMarker_none_of_no_marker {s : List Char}
    (h : ¬ phonelabMarker <:+: s) : dropAfterMarker s = none := by
  cases hd : dropAfterMarker s with
  | none => rfl
  | some t => exact absurd (dropAfterMarker_marker_occurs hd) h

theorem splitAtClose_some {l b r : List Char} (h : splitAtClose l = some (b, r)) :
    l = b ++ '*' :: '/' :: r := by
  induction l generalizing b with
  | nil => simp [splitAtClose] at h
  | cons c rest ih =>
    by_cases hc : c = '*' ∧ rest.head? = some '/'
    · rw [splitAtClose, if_pos hc] at h
      injection h with h
      injection h with hb hr
      obtain ⟨hc1, hc2⟩ := hc
      cases rest with
      | nil => simp at hc2
      | cons d rest' =>
        have hd : d = '/' := by simpa using hc2
        subst hd
        subst hc1
        rw [← hb, List.nil_append]
        rw [← hr]
        rfl
    · rw [splitAtClose, if_neg hc] at h
      cases hs : splitAtClose rest with
      | none =>
        rw [hs] at h
        exact Option.noConfusion h
      | some p =>
        rw [hs] at h
        obtain ⟨p1, p2⟩ := p
        have h' : some (c :: p1, p2) = some (b, r) := h
        injection h' with h'
        injection h' with hb hr
        subst hr
        rw [← hb, List.cons_append]
        rw [ih hs]

theorem scanCommentsFuel_mem {fuel pos start : Nat} {s body : List Char}
    (h : (start, body) ∈ scanCommentsFuel fuel pos s) :
    ∃ pre suf, s = pre ++ '/' :: '*' :: (body ++ '*' :: '/' :: suf) ∧
      start = pos + pre.length := by
  induction fuel generalizing pos s with
  | zero => simp [scanCommentsFuel] at h
  | succ fuel ih =>
    cases s with
    | nil => simp [scanCommentsFuel] at h
    | cons c rest =>
      by_cases hc : c = '/' ∧ rest.head? = some '*'
      · rw [scanCommentsFuel, if_pos hc] at h
        obtain ⟨hc1, hc2⟩ := hc
        subst hc1
        cases rest with
        | nil => simp at hc2
        | cons d rest' =>
          have hd : d = '*' := by simpa using hc2
          subst hd
          simp only [List.tail_cons] at h
          cases hs : splitAtClose rest' with
          | none =>
            rw [hs] at h
            simp at h
          | some p =>
            obtain ⟨body0, rest2⟩ := p
            rw [hs] at h
            rcases List.mem_cons.mp h with heq | hmem
            · injection heq with h1 h2
              subst h1
              subst h2
              refine ⟨[], rest2, ?_, by simp⟩
              rw [List.nil_append]
              have := splitAtClose_some hs
              rw [this]
            · obtain ⟨pre', suf, hrest2, hstart⟩ := ih hmem
              refine ⟨'/' :: '*' :: (body0 ++ '*' :: '/' :: pre'), suf, ?_, ?_⟩
              · have hrs := splitAtClose_some hs
                rw [hrs, hrest2]
                simp [List.append_assoc]
              · rw [hstart]
                simp [List.length_append]
                omega
      · rw [scanCommentsFuel, if_neg hc] at h
        obtain ⟨pre', suf, hrest, hstart⟩ := ih h
        refine ⟨c :: pre', suf, by rw [hrest]; rfl, ?_⟩
        rw [hstart]
        simp
        omega

theorem scanComments_mem {start : Nat} {s body : List Char}
    (h : (start, body) ∈ scanComments s) :
    ∃ pre suf, s = pre ++ '/' :: '*' :: (body ++ '*' :: '/' :: suf) ∧
      start = pre.length := by
  obtain ⟨pre, suf, h1, h2⟩ := scanCommentsFuel_mem h
  exact ⟨pre, suf, h1, by omega⟩

theorem createFromFileScan_eq (proj : RepoProject) (file s : List Char) :
    createFromFileScan proj file s =
      (((scanComments s).map (fun pc => (processComment proj file s pc.1 pc.2).1)).flatten,
       ((scanComments s).map (fun pc => (processComment proj file s pc.1 pc.2).2)).sum) := by
  have aux : ∀ (l : List (Nat × List Char)) (acc : List TagDoc × Nat),
      l.foldl (fun acc pc =>
        let r := processComment proj file s pc.1 pc.2
        (acc.1 ++ r.1, acc.2 + r.2)) acc =
      (acc.1 ++ ((l.map (fun pc => (processComment proj file s pc.1 pc.2).1)).flatten),
       acc.2 + ((l.map (fun pc => (processComment proj file s pc.1 pc.2).2)).sum)) := by
    intro l
    induction l with
    | nil => intro acc; simp
    | cons x xs ih =>
      intro acc
      simp only [List.foldl_cons, List.map_cons, List.flatten_cons, List.sum_cons]
      rw [ih]
      simp [List.append_assoc]
      omega
  unfold createFromFileScan
  rw [aux]
  simp

theorem splitlinesFuel_nil (fuel : Nat) : splitlinesFuel fuel [] = [] := by
  cases fuel <;> rfl

theorem splitlinesFuel_single {fuel : Nat} {l : List Char} (hn : '\n' ∉ l)
    (hr : '\r' ∉ l) (hne : l ≠ []) (hfuel : l.length ≤ fuel) :
    splitlinesFuel fuel l = [l] := by
  induction fuel generalizing l with
  | zero =>
    cases l with
    | nil => exact absurd rfl hne
    | cons c rest => simp at hfuel
  | succ fuel ih =>
    cases l with
    | nil => exact absurd rfl hne
    | cons c rest =>
      have hc1 : c ≠ '\r' := fun h => hr (h ▸ List.mem_cons_self c rest)
      have hc2 : c ≠ '\n' := fun h => hn (h ▸ List.mem_cons_self c rest)
      have hn' : '\n' ∉ rest := fun h => hn (List.mem_cons_of_mem c h)
      have hr' : '\r' ∉ rest := fun h => hr (List.mem_cons_of_mem c h)
      simp only [splitlinesFuel, if_neg hc2, if_neg hc1]
      cases rest with
      | nil => simp [splitlinesFuel_nil]
      | cons d rest' =>
        rw [ih hn' hr' (by simp) (by simpa using Nat.lt_succ_iff.mp (by simpa using hfuel))]
        simp

theorem splitlines_single {l : List Char} (hn : '\n' ∉ l) (hr : '\r' ∉ l)
    (hne : l ≠ []) : splitlines l = [l] :=
  splitlinesFuel_single hn hr hne (Nat.le_refl _)

theorem dropWhile_of_head {p : Char → Bool} {l : List Char}
    (h : ∀ c, l.head? = some c → p c = false) : l.dropWhile p = l := by
  cases l with
  | nil => rfl
  | cons c rest =>
    exact List.dropWhile_cons_of_neg (by simp [h c rfl])

theorem pyStrip_id {l : List Char} (h1 : ∀ c, l.head? = some c → pyWs c = false)
    (h2 : ∀ c, l.getLast? = some c → pyWs c = false) : pyStrip l = l := by
  unfold pyStrip
  rw [dropWhile_of_head h1]
  rw [dropWhile_of_head (fun c hc => h2 c (by rwa [List.head?_reverse] at hc))]
  exact List.reverse_reverse l

/-- The normalisation step is the identity on a payload that contains no
asterisk, sits on a single line, and has no leading or trailing
whitespace. -/
theorem normalizeDoc_id {j : List Char} (hstar : '*' ∉ j) (hn : '\n' ∉ j)
    (hr : '\r' ∉ j) (hne : j ≠ [])
    (h1 : ∀ c, j.head? = some c → pyWs c = false)
    (h2 : ∀ c, j.getLast? = some c → pyWs c = false) : normalizeDoc j = j := by
  unfold normalizeDoc
  have hf : j.filter (fun c => c != '*') = j := by
    rw [List.filter_eq_self]
    intro a ha
    simp only [bne_iff_ne, ne_eq]
    intro h
    exact hstar (h ▸ ha)
  rw [hf, splitlines_single hn hr hne, List.map_cons, List.map_nil,
    pyStrip_id h1 h2]
  simp [List.intercalate]

theorem TagDoc.make_line_no {proj : RepoProject} {file : List Char} {n : Nat}
    {doc : List (List Char × List Char)} {td : TagDoc}
    (h : TagDoc.make proj file n doc = some td) : td.line_no = n := by
  unfold TagDoc.make at h
  split at h
  · injection h with h
    subst h
    rfl
  · exact Option.noConfusion h

theorem phonelabDocGroup_none_of_no_marker {body : List Char}
    (h : ¬ phonelabMarker <:+: body) : phonelabDocGroup body = none := by
  unfold phonelabDocGroup
  rw [dropAfterMarker_none_of_no_marker h]

theorem processComment_no_match {proj : RepoProject} {file s : List Char}
    {start : Nat} {body : List Char} (h : phonelabDocGroup body = none) :
    processComment proj file s start body = ([], 0) := by
  unfold processComment
  rw [h]

theorem processComment_eq_of_group {proj : RepoProject} {file s : List Char}
    {start : Nat} {body j : List Char} (hj : phonelabDocGroup body = some j) :
    processComment proj file s start body =
      (match jsonLoads (normalizeDoc j) with
       | none => ([], 1)
       | some doc =>
         match TagDoc.make proj file ((s.take start).count '\n' + 1) doc with
         | none => ([], 1)
         | some td => ([td], 0)) := by
  unfold processComment
  rw [hj]

theorem processComment_no_marker {proj : RepoProject} {file s : List Char}
    {start : Nat} {body : List Char} (h : ¬ phonelabMarker <:+: body) :
    processComment proj file s start body = ([], 0) :=
  processComment_no_match (phonelabDocGroup_none_of_no_marker h)

theorem processComment_decode_failure {proj : RepoProject} {file s : List Char}
    {start : Nat} {body j : List Char} (hj : phonelabDocGroup body = some j)
    (hdec : jsonLoads (normalizeDoc j) = none) :
    processComment proj file s start body = ([], 1) := by
  rw [processComment_eq_of_group hj, hdec]

theorem processComment_missing_key {proj : RepoProject} {file s : List Char}
    {start : Nat} {body j : List Char} {doc : List (List Char × List Char)}
    (hj : phonelabDocGroup body = some j)
    (hdec : jsonLoads (normalizeDoc j) = some doc)
    (hmk : TagDoc.make proj file ((s.take start).count '\n' + 1) doc = none) :
    processComment proj file s start body = ([], 1) := by
  rw [processComment_eq_of_group hj]
  simp only [hdec, hmk]

theorem processComment_success {proj : RepoProject} {file s : List Char}
    {start : Nat} {body j : List Char} {doc : List (List Char × List Char)}
    {td : TagDoc} (hj : phonelabDocGroup body = some j)
    (hdec : jsonLoads (normalizeDoc j) = some doc)
    (hmk : TagDoc.make proj file ((s.take start).count '\n' + 1) doc = some td) :
    processComment proj file s start body = ([td], 0) := by
  rw [processComment_eq_of_group hj]
  simp only [hdec, hmk]

theorem processComment_mem_line_no {proj : RepoProject} {file s : List Char}
    {start : Nat} {body : List Char} {td : TagDoc}
    (h : td ∈ (processComment proj file s start body).1) :
    td.line_no = (s.take start).count '\n' + 1 := by
  cases h1 : phonelabDocGroup body with
  | none =>
    rw [processComment_no_match h1] at h
    simp at h
  | some j =>
    cases h2 : jsonLoads (normalizeDoc j) with
    | none =>
      rw [processComment_decode_failure h1 h2] at h
      simp at h
    | some doc =>
      cases h3 : TagDoc.make proj file ((s.take start).count '\n' + 1) doc with
      | none =>
        rw [processComment_missing_key h1 h2 h3] at h
        simp at h
      | some td0 =>
        rw [processComment_success h1 h2 h3] at h
        have : td = td0 := by simpa using h
        subst this
        exact TagDoc.make_line_no h3

theorem TagDoc.make_fields {proj : RepoProject} {file : List Char} {n : Nat}
    {doc : List (List Char × List Char)} {c sc tg a d : List Char}
    (hc : getKey doc "Category".data = some c)
    (hsc : getKey doc "SubCategory".data = some sc)
    (htg : getKey doc "Tag".data = some tg)
    (ha : getKey doc "Action".data = some a)
    (hd : getKey doc "Description".data = some d) :
    TagDoc.make proj file n doc =
      some { proj := proj, file := file, line_no := n, category := c,
             sub_category := sc, tag := tg, action := a, description := d,
             institution := pyInstitution tg } := by
  unfold TagDoc.make
  rw [hc, hsc, htg, ha, hd]

theorem strIndex_at (needle pre suf : List Char)
    (hfirst : ∀ j, j < pre.length →
      needle.isPrefixOf ((pre ++ needle ++ suf).drop j) = false) :
    strIndex needle (pre ++ needle ++ suf) = some pre.length := by
  induction pre with
  | nil =>
    simp only [List.nil_append, List.length_nil]
    cases h : needle ++ suf with
    | nil =>
      obtain ⟨hn, -⟩ := List.append_eq_nil.mp h
      subst hn
      rfl
    | cons c r =>
      rw [strIndex, if_pos]
      exact List.isPrefixOf_iff_prefix.mpr ⟨suf, h⟩
  | cons c pre' ih =>
    have h0 := hfirst 0 (by simp)
    rw [List.drop_zero] at h0
    simp only [List.cons_append] at h0 ⊢
    rw [strIndex, if_neg (by rw [h0]; simp)]
    have hshift : ∀ j, j < pre'.length →
        needle.isPrefixOf ((pre' ++ needle ++ suf).drop j) = false := by
      intro j hj
      have := hfirst (j + 1) (by simpa using Nat.succ_lt_succ hj)
      simpa [List.cons_append] using this
    rw [ih hshift]
    rfl

theorem get_relative_path_none {p : RepoProject} {fp : List Char}
    (h : strIndex p.path fp = none) : p.get_relative_path fp = none := by
  unfold RepoProject.get_relative_path
  rw [h]
  rfl

theorem get_relative_path_join (p : RepoProject) (pre suffix : List Char)
    (hfirst : ∀ j, j < pre.length →
      p.path.isPrefixOf ((pre ++ p.path ++ '/' :: suffix).drop j) = false) :
    p.get_relative_path (pre ++ p.path ++ '/' :: suffix) = some suffix := by
  unfold RepoProject.get_relative_path
  rw [strIndex_at p.path pre ('/' :: suffix) hfirst]
  have hsplit : pre ++ p.path ++ '/' :: suffix = (pre ++ p.path ++ ['/']) ++ suffix := by
    simp
  have hlen : pre.length + p.path.length + 1 = (pre ++ p.path ++ ['/']).length := by
    simp
    omega
  rw [Option.map_some']
  rw [hsplit, hlen, List.drop_left]

theorem createFromFileScan_fst (proj : RepoProject) (file s : List Char) :
    (createFromFileScan proj file s).1 =
      ((scanComments s).map
        (fun pc => (processComment proj file s pc.1 pc.2).1)).flatten := by
  rw [createFromFileScan_eq]

theorem createFromFileScan_snd (proj : RepoProject) (file s : List Char) :
    (createFromFileScan proj file s).2 =
      ((scanComments s).map
        (fun pc => (processComment proj file s pc.1 pc.2).2)).sum := by
  rw [createFromFileScan_eq]

theorem map_fst_pair {α β : Type} (f : α → β) (l : List α) :
    (l.map (fun a => (a, f a))).map Prod.fst = l := by
  induction l with
  | nil => rfl
  | cons x xs ih => simp only [List.map_cons, ih]

theorem sections_map_fst (tag_docs : List TagDoc) :
    (HTMLFormatter.sections tag_docs).map Prod.fst =
      sortedSet (tag_docs.map TagDoc.category) := by
  unfold HTMLFormatter.sections
  exact map_fst_pair _ _

theorem sections_mem_eq {tag_docs : List TagDoc} {c : List Char}
    {tgs : List (List Char × List TagDoc)}
    (h : (c, tgs) ∈ HTMLFormatter.sections tag_docs) :
    c ∈ sortedSet (tag_docs.map TagDoc.category) ∧
    tgs = (sortedSet ((tag_docs.filter (fun t => t.category == c)).map TagDoc.tag)).map
      (fun tg => (tg, sortByAction ((tag_docs.filter (fun t => t.category == c)).filter
        (fun t => t.tag == tg)))) := by
  unfold HTMLFormatter.sections at h
  obtain ⟨c0, hc0, heq⟩ := List.mem_map.mp h
  simp only [Prod.mk.injEq] at heq
  obtain ⟨h1, h2⟩ := heq
  subst h1
  exact ⟨hc0, h2.symm⟩

theorem tags_map_fst (category_tags : List TagDoc) :
    ((sortedSet (category_tags.map TagDoc.tag)).map
      (fun tg => (tg, sortByAction (category_tags.filter (fun t => t.tag == tg))))).map
        Prod.fst =
      sortedSet (category_tags.map TagDoc.tag) := by
  exact map_fst_pair _ _

theorem tags_mem_eq {category_tags : List TagDoc} {tg : List Char}
    {occs : List TagDoc}
    (h : (tg, occs) ∈ (sortedSet (category_tags.map TagDoc.tag)).map
      (fun tg => (tg, sortByAction (category_tags.filter (fun t => t.tag == tg))))) :
    tg ∈ sortedSet (category_tags.map TagDoc.tag) ∧
    occs = sortByAction (category_tags.filter (fun t => t.tag == tg)) := by
  obtain ⟨tg0, htg0, heq⟩ := List.mem_map.mp h
  simp only [Prod.mk.injEq] at heq
  obtain ⟨h1, h2⟩ := heq
  subst h1
  exact ⟨htg0, h2.symm⟩

/-- Claim C6: every record a file scan produces carries as line_number one
plus the number of newline characters strictly before the start offset of
its enclosing block comment: the text decomposes as a prefix, the comment
opener, the comment body and terminator, and the rest, the record comes
from processing that body at the offset given by the prefix length, and
its line number is the newline count of that prefix plus one. -/
theorem line_number_counts_newlines (proj : RepoProject) (file s : List Char)
    (td : TagDoc) (h : td ∈ (createFromFileScan proj file s).1) :
    ∃ pre body suf, s = pre ++ '/' :: '*' :: (body ++ '*' :: '/' :: suf) ∧
      td ∈ (processComment proj file s pre.length body).1 ∧
      td.line_no = pre.count '\n' + 1 := by
  rw [createFromFileScan_fst] at h
  obtain ⟨l, hl, hmem⟩ := List.mem_flatten.mp h
  obtain ⟨pc, hpc, hleq⟩ := List.mem_map.mp hl
  subst hleq
  obtain ⟨start, body⟩ := pc
  obtain ⟨pre, suf, hs, hstart⟩ := scanComments_mem hpc
  subst hstart
  refine ⟨pre, body, suf, hs, hmem, ?_⟩
  rw [processComment_mem_line_no hmem]
  congr 2
  rw [hs, List.take_left]

set_option maxRecDepth 100000 in
/-- Witness for C6 at a concrete two-line file: the record is produced
and the theorem yields the decomposition. -/
theorem line_number_counts_newlines_witness :
    tdC6 ∈ (createFromFileScan pEx "f.c".data sC6).1 ∧
    ∃ pre body suf, sC6 = pre ++ '/' :: '*' :: (body ++ '*' :: '/' :: suf) ∧
      tdC6 ∈ (processComment pEx "f.c".data sC6 pre.length body).1 ∧
      tdC6.line_no = pre.count '\n' + 1 :=
  ⟨by decide, line_number_counts_newlines pEx "f.c".data sC6 tdC6 (by decide)⟩

/-- Claim C7: the four summary numbers both renderers print are the
cardinalities of the sets of distinct tag, action, category and
institution values over the whole record collection, and both formats
report the same four numbers. -/
theorem summary_counts_distinct (tag_docs : List TagDoc) :
    HTMLFormatter.summaryCounts tag_docs = RSTFormatter.summaryCounts tag_docs
    ∧ HTMLFormatter.summaryCounts tag_docs =
        ((tag_docs.map TagDoc.tag).toFinset.card,
         (tag_docs.map TagDoc.action).toFinset.card,
         (tag_docs.map TagDoc.category).toFinset.card,
         (tag_docs.map TagDoc.institution).toFinset.card) := by
  refine ⟨rfl, ?_⟩
  unfold HTMLFormatter.summaryCounts
  simp [List.card_toFinset]

/-- Claim C8: a comment body in which the marker token does not occur
produces no records and no error log, for any file position. -/
theorem no_marker_no_record (proj : RepoProject) (file s : List Char)
    (start : Nat) (body : List Char) (h : ¬ phonelabMarker <:+: body) :
    processComment proj file s start body = ([], 0) :=
  processComment_no_marker h

/-- Witness for C8 at a concrete marker-free body. -/
theorem no_marker_no_record_witness :
    ¬ phonelabMarker <:+: bodyC8 ∧
    processComment pEx "f.c".data [] 0 bodyC8 = ([], 0) :=
  ⟨by decide, no_marker_no_record pEx "f.c".data [] 0 bodyC8 (by decide)⟩

set_option maxRecDepth 20000 in
/-- Claim C9: on the empty record collection both renderers succeed and
produce exactly the summary with all four counts zero, no category
sections, and the footer; the section structure is empty and the counts
are zero. -/
theorem empty_collection_report :
    HTMLFormatter.render "2016-01-01".data [] =
      some ("<h2>Summary</h2>\n<p>PhoneLab\x27s instrumented Android platform currently contains:</p>\n<ul>\n<li><b>0</b> tags, <b>0</b> actions,</li>\n<li>... in <b>0</b> categories,</li>\n<li>... added by <b>0</b> institution.</li>\n</ul>\n<hr>\n<p><i>Last updated 2016-01-01.</i></p>").data
    ∧ RSTFormatter.render "tagdoc.py".data "2016-01-01".data [] =
      some (".. Generated by tagdoc.py on 2016-01-01, DO NOT MODIFY.\n\nSummary\n-------\nPhoneLab\x27s instrumented Android platform currently contains:\n\n* 0 tags, 0 actions,\n\n* ... in 0 categories,\n\n* ... added by 0 institution.\n\nLast updated 2016-01-01").data
    ∧ HTMLFormatter.sections [] = [] ∧ RSTFormatter.sections [] = []
    ∧ HTMLFormatter.summaryCounts [] = (0, 0, 0, 0)
    ∧ RSTFormatter.summaryCounts [] = (0, 0, 0, 0) :=
  ⟨by decide, by decide, rfl, rfl, rfl, rfl⟩

theorem dropWhile_cons_false {α : Type} {p : α → Bool} {l cs : List α} {c : α}
    (h : l.dropWhile p = c :: cs) : p c = false := by
  induction l with
  | nil => simp [List.dropWhile] at h
  | cons x xs ih =>
    by_cases hx : p x
    · rw [List.dropWhile_cons_of_pos hx] at h
      exact ih h
    · rw [List.dropWhile_cons_of_neg hx] at h
      injection h with h1 h2
      subst h1
      simpa using hx

/-- Claim C1 (amended): when the doc pattern matches a comment body, the
extracted payload starts at the first opening brace after the marker and
extends to the LAST closing brace of the body: the body decomposes into a
prefix, the marker, a brace-free gap, the payload, and a suffix that
contains no closing brace; text between the first balanced closing brace
and the last closing brace IS part of the payload. -/
theorem phonelabDocGroup_extends_to_last_close (body j : List Char)
    (h : phonelabDocGroup body = some j) :
    ∃ p mid suf, body = p ++ phonelabMarker ++ mid ++ j ++ suf ∧ '{' ∉ mid ∧
      j.head? = some '{' ∧ j.getLast? = some '}' ∧ '}' ∉ suf := by
  unfold phonelabDocGroup at h
  cases hd : dropAfterMarker body with
  | none =>
    rw [hd] at h
    exact Option.noConfusion h
  | some t =>
    rw [hd] at h
    have h1 : bracesGroup t = some j := h
    unfold bracesGroup at h1
    cases hu : t.dropWhile (fun c => c != '{') with
    | nil =>
      rw [hu] at h1
      exact Option.noConfusion h1
    | cons u0 urest =>
      have hu0 : u0 = '{' := by
        have := dropWhile_cons_false hu
        simpa using this
      subst hu0
      rw [hu] at h1
      have h2 : lastCloseGroup urest = some j := h1
      unfold lastCloseGroup at h2
      cases hr : urest.reverse.dropWhile (fun c => c != '}') with
      | nil =>
        rw [hr] at h2
        exact Option.noConfusion h2
      | cons r rs =>
        rw [hr] at h2
        have h3 : some ('{' :: (r :: rs).reverse) = some j := h2
        injection h3 with h3
        subst h3
        obtain ⟨p, hp⟩ := dropAfterMarker_some hd
        have hr0 : r = '}' := by
          have := dropWhile_cons_false hr
          simpa using this
        subst hr0
        obtain ⟨mid, hmid⟩ : ∃ m, t.takeWhile (fun c => c != '{') = m := ⟨_, rfl⟩
        obtain ⟨tw, htw⟩ : ∃ w, urest.reverse.takeWhile (fun c => c != '}') = w :=
          ⟨_, rfl⟩
        have ht : mid ++ ('{' :: urest) = t := by
          rw [← hmid, ← hu]
          exact List.takeWhile_append_dropWhile _ _
        have hur : urest = ('}' :: rs).reverse ++ tw.reverse := by
          have h4 : urest.reverse.takeWhile (fun c => c != '}') ++
              urest.reverse.dropWhile (fun c => c != '}') = urest.reverse :=
            List.takeWhile_append_dropWhile _ _
          rw [hr, htw] at h4
          have h5 := congrArg List.reverse h4
          rw [List.reverse_append, List.reverse_reverse] at h5
          exact h5.symm
        refine ⟨p, mid, tw.reverse, ?_, ?_, rfl, ?_, ?_⟩
        · rw [hp, ← ht, hur]
          simp [List.append_assoc]
        · intro hmem
          rw [← hmid] at hmem
          have := List.mem_takeWhile_imp hmem
          simp at this
        · rw [List.reverse_cons]
          rw [show ('{' :: (rs.reverse ++ ['}'])) = ('{' :: rs.reverse) ++ ['}'] from rfl]
          exact List.getLast?_concat _
        · intro hmem
          rw [List.mem_reverse, ← htw] at hmem
          have := List.mem_takeWhile_imp hmem
          simp at this

/-- Counterexample for C1 as stated: on a body with a second brace pair
after the object, the code extracts past the balanced region, so the
extraction is not the balanced one the spec describes. -/
theorem phonelabDocGroup_balanced_cex :
    phonelabDocGroup bodyC1 = some groupC1 ∧
    balancedDocGroupSpec bodyC1 = some balC1 ∧
    groupC1 ≠ balC1 :=
  ⟨by decide, by decide, by decide⟩

set_option maxRecDepth 100000 in
/-- Witness for the amended C1 at the concrete body. -/
theorem phonelabDocGroup_extends_witness :
    ∃ p mid suf, bodyC1 = p ++ phonelabMarker ++ mid ++ groupC1 ++ suf ∧
      '{' ∉ mid ∧ groupC1.head? = some '{' ∧ groupC1.getLast? = some '}' ∧
      '}' ∉ suf :=
  phonelabDocGroup_extends_to_last_close bodyC1 groupC1 (by decide)

/-- Claim C3 (amended): when the doc pattern matches and the payload
fails to decode, or decodes to an object missing a required key, the
occurrence yields no record and exactly one error log, and the file scan
processes every comment independently, concatenating the per-comment
records and summing the per-comment error logs, so one malformed tag
never aborts the scan.  When the marker is present but no closing brace
follows an opening brace, the pattern itself fails and the occurrence is
skipped with NO error log, contrary to the claim as stated. -/
theorem malformed_payload_logged :
    (∀ (proj : RepoProject) (file s : List Char) (start : Nat) (body j : List Char),
       phonelabDocGroup body = some j →
       (jsonLoads (normalizeDoc j) = none ∨
        ∃ doc, jsonLoads (normalizeDoc j) = some doc ∧
          TagDoc.make proj file ((s.take start).count '\n' + 1) doc = none) →
       processComment proj file s start body = ([], 1))
    ∧ (∀ (proj : RepoProject) (file s : List Char),
        (createFromFileScan proj file s).1 =
          ((scanComments s).map
            (fun pc => (processComment proj file s pc.1 pc.2).1)).flatten ∧
        (createFromFileScan proj file s).2 =
          ((scanComments s).map
            (fun pc => (processComment proj file s pc.1 pc.2).2)).sum) := by
  constructor
  · intro proj file s start body j hj hbad
    rcases hbad with hdec | ⟨doc, hdec, hmk⟩
    · exact processComment_decode_failure hj hdec
    · exact processComment_missing_key hj hdec hmk
  · intro proj file s
    exact ⟨createFromFileScan_fst proj file s, createFromFileScan_snd proj file s⟩

set_option maxRecDepth 100000 in
/-- Witness for the amended C3: a brace pair with invalid JSON content
yields no record and one error log. -/
theorem malformed_payload_logged_witness :
    processComment pEx "f.c".data [] 0 bodyC3w = ([], 1) :=
  malformed_payload_logged.1 pEx "f.c".data [] 0 bodyC3w ("\x7bbad\x7d".data)
    (by decide) (Or.inl (by decide))

set_option maxRecDepth 100000 in
/-- Counterexample for C3 as stated: a body with the marker and an
unbalanced opening brace produces zero records but also ZERO error logs,
where the claim requires one logged error. -/
theorem malformed_payload_unbalanced_cex :
    phonelabMarker <:+: bodyC3 ∧ '{' ∈ bodyC3 ∧
    processComment pEx "f.c".data [] 0 bodyC3 = ([], 0) :=
  ⟨by decide, by decide, by decide⟩

/-- Claim C4 (amended): the normalisation step removes EVERY asterisk of
the payload, including those inside string values, strips each line and
joins lines with single spaces; a payload with no asterisk on a single
line with no leading or trailing whitespace therefore reaches the
decoder unchanged, and a valid such payload decodes to a record whose
five fields equal the values decoded from the payload itself. -/
theorem normalize_clean_payload :
    (∀ j : List Char, '*' ∉ j → '\n' ∉ j → '\r' ∉ j → j ≠ [] →
       (∀ c, j.head? = some c → pyWs c = false) →
       (∀ c, j.getLast? = some c → pyWs c = false) →
       normalizeDoc j = j)
    ∧ (∀ (proj : RepoProject) (file s : List Char) (start : Nat)
         (body j : List Char) (doc : List (List Char × List Char))
         (c sc tg a d : List Char),
        phonelabDocGroup body = some j →
        '*' ∉ j → '\n' ∉ j → '\r' ∉ j → j ≠ [] →
        (∀ ch, j.head? = some ch → pyWs ch = false) →
        (∀ ch, j.getLast? = some ch → pyWs ch = false) →
        jsonLoads j = some doc →
        getKey doc "Category".data = some c →
        getKey doc "SubCategory".data = some sc →
        getKey doc "Tag".data = some tg →
        getKey doc "Action".data = some a →
        getKey doc "Description".data = some d →
        ∃ td, processComment proj file s start body = ([td], 0) ∧
          td.category = c ∧ td.sub_category = sc ∧ td.tag = tg ∧
          td.action = a ∧ td.description = d) := by
  refine ⟨fun j h1 h2 h3 h4 h5 h6 => normalizeDoc_id h1 h2 h3 h4 h5 h6, ?_⟩
  intro proj file s start body j doc c sc tg a d hj hstar hn hr hne hh hl hdec
    hc hsc htg ha hd
  have hnorm : jsonLoads (normalizeDoc j) = some doc := by
    rw [normalizeDoc_id hstar hn hr hne hh hl]
    exact hdec
  exact ⟨_, processComment_success hj hnorm
    (TagDoc.make_fields hc hsc htg ha hd), rfl, rfl, rfl, rfl, rfl⟩

set_option maxRecDepth 100000 in
/-- Counterexample for C4 as stated: the payload value of Description is
the three characters x asterisk y, yet the produced record holds the two
characters x y, because normalisation deletes the asterisk inside the
value before decoding. -/
theorem normalize_asterisk_cex :
    phonelabDocGroup bodyC4 = some groupC4 ∧
    jsonLoads groupC4 = some docC4cex ∧
    getKey docC4cex "Description".data = some "x*y".data ∧
    (processComment pEx "f.c".data [] 0 bodyC4).1.map TagDoc.description =
      ["xy".data] ∧
    "xy".data ≠ "x*y".data :=
  ⟨by decide, by decide, by decide, by decide, by decide⟩

set_option maxRecDepth 100000 in
/-- Witness for the amended C4 at a clean single-line payload: every
field of the record equals the decoded value. -/
theorem normalize_clean_payload_witness :
    normalizeDoc groupC4w = groupC4w ∧
    ∃ td, processComment pEx "f.c".data [] 0 bodyC4w = ([td], 0) ∧
      td.category = "c".data ∧ td.sub_category = "s".data ∧
      td.tag = "t".data ∧ td.action = "a".data ∧
      td.description = "d".data := by
  have hh : ∀ ch, groupC4w.head? = some ch → pyWs ch = false := by
    intro ch hch
    rw [(by decide : groupC4w.head? = some '{')] at hch
    injection hch with hch
    subst hch
    decide
  have hl : ∀ ch, groupC4w.getLast? = some ch → pyWs ch = false := by
    intro ch hch
    rw [(by decide : groupC4w.getLast? = some '}')] at hch
    injection hch with hch
    subst hch
    decide
  constructor
  · exact normalize_clean_payload.1 groupC4w (by decide) (by decide) (by decide)
      (by decide) hh hl
  · exact normalize_clean_payload.2 pEx "f.c".data [] 0 bodyC4w groupC4w docC4w
      "c".data "s".data "t".data "a".data "d".data (by decide) (by decide)
      (by decide) (by decide) (by decide) hh hl (by decide) (by decide)
      (by decide) (by decide) (by decide) (by decide)

/-- Claim C5: a payload with all five required keys yields exactly one
record whose institution is the last dash-separated field of the tag,
the substring after the last dash: for any tag of the form prefix, dash,
dash-free suffix the institution is that suffix, and for a dash-free tag
it is the whole tag. -/
theorem institution_last_dash_field :
    (∀ (proj : RepoProject) (file s : List Char) (start : Nat)
       (body j : List Char) (doc : List (List Char × List Char))
       (c sc tg a d : List Char),
      phonelabDocGroup body = some j →
      jsonLoads (normalizeDoc j) = some doc →
      getKey doc "Category".data = some c →
      getKey doc "SubCategory".data = some sc →
      getKey doc "Tag".data = some tg →
      getKey doc "Action".data = some a →
      getKey doc "Description".data = some d →
      ∃ td, processComment proj file s start body = ([td], 0) ∧
        td.tag = tg ∧ td.institution = pyInstitution tg)
    ∧ (∀ x b : List Char, '-' ∉ b → pyInstitution (x ++ '-' :: b) = b)
    ∧ (∀ l : List Char, '-' ∉ l → pyInstitution l = l) := by
  refine ⟨?_, pyInstitution_after_last_dash, fun l h => pyInstitution_no_dash h⟩
  intro proj file s start body j doc c sc tg a d hj hdec hc hsc htg ha hd
  exact ⟨_, processComment_success hj hdec
    (TagDoc.make_fields hc hsc htg ha hd), rfl, rfl⟩

set_option maxRecDepth 100000 in
/-- Witness for C5 at a concrete valid payload with tag ui-event-UB, and
the two example evaluations of the claim. -/
theorem institution_last_dash_field_witness :
    (∃ td, processComment pEx "f.c".data [] 0 bodyC5 = ([td], 0) ∧
      td.tag = "ui-event-UB".data ∧
      td.institution = pyInstitution "ui-event-UB".data) ∧
    pyInstitution "ui-event-UB".data = "UB".data ∧
    pyInstitution "noinstitution".data = "noinstitution".data :=
  ⟨institution_last_dash_field.1 pEx "f.c".data [] 0 bodyC5 groupC5 docC5
      "C".data "S".data "ui-event-UB".data "A".data "D".data
      (by decide) (by decide) (by decide) (by decide) (by decide) (by decide)
      (by decide),
    by decide, by decide⟩

/-- Claim C10: get_relative_path is partial.  When the project path does
not occur in the argument the operation fails, the modelled ValueError,
and get_file_url fails with it.  When the argument is a prefix, the
project path, a separator and a suffix, and the project path does not
occur earlier, the result is exactly the suffix and get_file_url builds
the deep link from it; in particular this holds for the project absolute
path joined with a relative suffix. -/
theorem relative_path_partiality :
    (∀ (p : RepoProject) (fp : List Char) (ln : Option Nat),
      strIndex p.path fp = none →
      p.get_relative_path fp = none ∧ p.get_file_url fp ln = none)
    ∧ (∀ (p : RepoProject) (pre suffix : List Char) (n : Nat),
        (∀ i, i < pre.length →
          p.path.isPrefixOf ((pre ++ p.path ++ '/' :: suffix).drop i) = false) →
        p.get_relative_path (pre ++ p.path ++ '/' :: suffix) = some suffix ∧
        p.get_file_url (pre ++ p.path ++ '/' :: suffix) (some n) =
          some ((p.url ++ ";a=blob;f=".data ++ suffix ++ ";hb=refs/heads/".data ++
            p.current_branch) ++ "#l".data ++ (Nat.repr n).data))
    ∧ (∀ (p : RepoProject) (suffix : List Char),
        (∀ i, i < p.root.length + 1 →
          p.path.isPrefixOf ((p.abs_path ++ '/' :: suffix).drop i) = false) →
        p.get_relative_path (p.abs_path ++ '/' :: suffix) = some suffix) := by
  refine ⟨?_, ?_, ?_⟩
  · intro p fp ln h
    have h1 := get_relative_path_none h
    refine ⟨h1, ?_⟩
    unfold RepoProject.get_file_url
    rw [h1]
    rfl
  · intro p pre suffix n hfirst
    have h1 := get_relative_path_join p pre suffix hfirst
    refine ⟨h1, ?_⟩
    unfold RepoProject.get_file_url
    rw [h1]
    rfl
  · intro p suffix hfirst
    have harg : p.abs_path ++ '/' :: suffix =
        (p.root ++ ['/']) ++ p.path ++ '/' :: suffix := by
      simp [RepoProject.abs_path, List.append_assoc]
    rw [harg]
    apply get_relative_path_join
    intro i hi
    have h2 := hfirst i (by simpa using hi)
    rw [harg] at h2
    exact h2

/-- Witness for C10: a path without the project path fails both lookups,
and a properly joined path returns the suffix. -/
theorem relative_path_partiality_witness :
    (pC10.get_relative_path "/x/a.c".data = none ∧
     pC10.get_file_url "/x/a.c".data (some 3) = none) ∧
    pC10.get_relative_path ("/w/".data ++ pC10.path ++ '/' :: "core/a.c".data) =
      some "core/a.c".data :=
  ⟨relative_path_partiality.1 pC10 "/x/a.c".data (some 3) (by decide),
   (relative_path_partiality.2.1 pC10 "/w/".data "core/a.c".data 3 (by decide)).1⟩

/-- Claim C2: both formatters emit the same section structure; category
sections are strictly lexicographically sorted, a category appearing
exactly when some record carries it; inside a category the tag
subsections are strictly sorted, a tag appearing exactly when a record
of the category carries it; inside a tag subsection the occurrences are
sorted by action, are a permutation of the records of that category and
tag, and for each action value keep exactly the original relative order,
the stable-sort tiebreak.  The aggregation is a pure function of the
record list, so re-running it on equal input gives equal ordering. -/
theorem formatters_grouping_sorted (tag_docs : List TagDoc) :
    HTMLFormatter.sections tag_docs = RSTFormatter.sections tag_docs
    ∧ ((HTMLFormatter.sections tag_docs).map Prod.fst).Pairwise lexLt
    ∧ (∀ c, c ∈ (HTMLFormatter.sections tag_docs).map Prod.fst ↔
        c ∈ tag_docs.map TagDoc.category)
    ∧ (∀ c tgs, (c, tgs) ∈ HTMLFormatter.sections tag_docs →
        (tgs.map Prod.fst).Pairwise lexLt
        ∧ (∀ tg, tg ∈ tgs.map Prod.fst ↔
            tg ∈ (tag_docs.filter (fun t => t.category == c)).map TagDoc.tag)
        ∧ (∀ tg occs, (tg, occs) ∈ tgs →
            occs.Pairwise (fun x y => lexLe x.action y.action = true)
            ∧ occs.Perm ((tag_docs.filter (fun t => t.category == c)).filter
                (fun t => t.tag == tg))
            ∧ (∀ a, occs.filter (fun t => t.action == a) =
                ((tag_docs.filter (fun t => t.category == c)).filter
                  (fun t => t.tag == tg)).filter (fun t => t.action == a)))) := by
  refine ⟨rfl, ?_, ?_, ?_⟩
  · rw [sections_map_fst]
    exact sorted_lexLt_sortedSet _
  · intro c
    rw [sections_map_fst, mem_sortedSet]
  · intro c tgs hsec
    obtain ⟨hc, htgs⟩ := sections_mem_eq hsec
    subst htgs
    refine ⟨?_, ?_, ?_⟩
    · rw [tags_map_fst]
      exact sorted_lexLt_sortedSet _
    · intro tg
      rw [tags_map_fst, mem_sortedSet]
    · intro tg occs hocc
      obtain ⟨htg, hoccs⟩ := tags_mem_eq hocc
      subst hoccs
      exact ⟨pairwise_sortByAction _, sortByAction_perm _,
        fun a => filter_sortByAction _ a⟩

set_option maxRecDepth 100000 in
/-- Witness for C2 at a one-record collection, discharging the section
and subsection memberships concretely. -/
theorem formatters_grouping_sorted_witness :
    ((HTMLFormatter.sections [tdC2]).map Prod.fst).Pairwise lexLt ∧
    [tdC2].Pairwise (fun x y => lexLe x.action y.action = true) ∧
    (∀ a, [tdC2].filter (fun t => t.action == a) =
      (([tdC2].filter (fun t => t.category == "C".data)).filter
        (fun t => t.tag == "t".data)).filter (fun t => t.action == a)) := by
  have h := (formatters_grouping_sorted [tdC2]).2.2.2 "C".data
    [("t".data, [tdC2])] (by decide)
  have h2 := h.2.2 "t".data [tdC2] (by decide)
  exact ⟨(formatters_grouping_sorted [tdC2]).2.1, h2.1, h2.2.2⟩

